import Mathlib

/-!
Shallow embedding of the `custom-rust-webserver` repository: the HTTP
request parser (`src/models/http_request.rs`), the response builder
(`src/models/http_response.rs`), the method table
(`src/models/http_methods.rs`), and the route normalization / route table
construction / connection handling in `src/main.rs`.

Strings from the Rust code are modelled as `List Char`; `HashMap` is
modelled as an association list with insert-replaces semantics; a Rust
panic (`unwrap` failure, index out of bounds) is modelled as `none`;
fallible parsing returns `Except`.
-/

/-- Rust `str::to_lowercase`, applied characterwise. -/
def lowerL (l : List Char) : List Char :=
  l.map Char.toLower

/-- Rust `trim_end_matches(|c| c == '\r' || c == '\n')`: drop every trailing CR or LF. -/
def trimEndCRLF (l : List Char) : List Char :=
  (l.reverse.dropWhile (fun c => c == '\r' || c == '\n')).reverse

/-- Rust `str::trim`: drop leading and trailing whitespace. -/
def trimL (l : List Char) : List Char :=
  ((l.dropWhile Char.isWhitespace).reverse.dropWhile Char.isWhitespace).reverse

/-- Rust `str::split_whitespace`: whitespace-separated tokens, empties discarded. -/
def splitWhitespace (l : List Char) : List (List Char) :=
  (l.splitOnP (fun c => c.isWhitespace)).filter (fun p => !p.isEmpty)

/-- Rust `str::split_once(sep)`: split at the first occurrence of `sep`. -/
def splitOnce (sep : Char) : List Char → Option (List Char × List Char)
  | [] => none
  | c :: cs =>
    if c = sep then some ([], cs)
    else (splitOnce sep cs).map (fun p => (c :: p.1, p.2))

/-- One `BufRead::read_line` step on a byte stream: the consumed line
(including its terminating LF when present) and the remaining stream. -/
def readLine : List Char → List Char × List Char
  | [] => ([], [])
  | c :: cs =>
    if c = '\n' then ([c], cs)
    else
      let p := readLine cs
      (c :: p.1, p.2)

/-- Rust `str::parse::<usize>()`: an optional leading plus sign followed by at
least one decimal digit (overflow is not modelled). -/
def parseUsize (s : List Char) : Option Nat :=
  let digits := match s with
    | '+' :: rest => rest
    | other => other
  if digits.isEmpty || !digits.all Char.isDigit then none
  else some (digits.foldl (fun n c => 10 * n + (c.toNat - 48)) 0)

/-- Decimal rendering of a `usize`, as Rust `usize::to_string`. -/
def natToChars (n : Nat) : List Char :=
  (Nat.repr n).data

/-- `HashMap::insert`: replace the binding of `k` in place, or append it. -/
def insertAssoc (k : List Char) (v : List Char) :
    List (List Char × List Char) → List (List Char × List Char)
  | [] => [(k, v)]
  | (k', v') :: rest =>
    if k' = k then (k, v) :: rest else (k', v') :: insertAssoc k v rest

/-- `HashMap::get`. -/
def lookupAssoc (k : List Char) : List (List Char × List Char) → Option (List Char)
  | [] => none
  | (k', v) :: rest => if k' = k then some v else lookupAssoc k rest

/-- `HashMap::extend`: insert every binding of `sm` into `m`. -/
def extendAssoc (m sm : List (List Char × List Char)) : List (List Char × List Char) :=
  sm.foldl (fun acc p => insertAssoc p.1 p.2 acc) m

/-- First-defined choice on options. -/
def oor (a b : Option (List Char)) : Option (List Char) :=
  match a with
  | some v => some v
  | none => b

/-- The keys of an association list. -/
def keysOf (m : List (List Char × List Char)) : List (List Char) :=
  m.map Prod.fst

/-- The nine HTTP methods of `http_methods.rs`. -/
inductive HttpMethods where
  | GET | HEAD | POST | PUT | DELETE | CONNECT | OPTIONS | TRACE | PATCH
deriving DecidableEq, Repr

/-- `http_method_from_string` of `http_methods.rs`: case-exact match against
the nine method strings. -/
def http_method_from_string (method : List Char) : Option HttpMethods :=
  if method = "GET".data then some HttpMethods.GET
  else if method = "HEAD".data then some HttpMethods.HEAD
  else if method = "POST".data then some HttpMethods.POST
  else if method = "PUT".data then some HttpMethods.PUT
  else if method = "DELETE".data then some HttpMethods.DELETE
  else if method = "CONNECT".data then some HttpMethods.CONNECT
  else if method = "OPTIONS".data then some HttpMethods.OPTIONS
  else if method = "TRACE".data then some HttpMethods.TRACE
  else if method = "PATCH".data then some HttpMethods.PATCH
  else none

/-- `HttpParseError` of `http_request.rs` (the `IoError` payload is dropped). -/
inductive HttpParseError where
  | HeaderTooLong
  | MissingHostHeader
  | MalformedRequestLine
  | IoError
deriving DecidableEq, Repr

/-- `MAX_HEADER_LINE_LEN` of `http_request.rs`. -/
def maxHeaderLineLen : Nat := 8192

/-- `HttpRequest` of `http_request.rs`. -/
structure HttpRequest where
  method : HttpMethods
  target : List Char
  version : List Char
  headers : List (List Char × List Char)
  body : Option (List Char)
deriving DecidableEq, Repr

/-- `HttpRequest::build`. -/
def HttpRequest.build (method : HttpMethods) (target version : List Char) : HttpRequest :=
  { method := method, target := target, version := version, headers := [], body := none }

/-- `HttpRequest::add_header`: store under the lowercased title. -/
def HttpRequest.add_header (r : HttpRequest) (title value : List Char) : HttpRequest :=
  { r with headers := insertAssoc (lowerL title) value r.headers }

/-- The request-line phase of `HttpRequest::build_from_stream` (http_request.rs
lines 54-68), applied to one raw line as returned by `read_line`: strip the
trailing CR/LF, enforce the length cap, then split on whitespace and take
method, target and version (extra tokens are ignored by the iterator). -/
def parseRequestLine (raw : List Char) :
    Except HttpParseError (HttpMethods × List Char × List Char) :=
  let line := trimEndCRLF raw
  if line.length > maxHeaderLineLen then .error .HeaderTooLong
  else
    match splitWhitespace line with
    | [] => .error .MalformedRequestLine
    | methodStr :: rest =>
      match http_method_from_string methodStr with
      | none => .error .MalformedRequestLine
      | some m =>
        match rest with
        | [] => .error .MalformedRequestLine
        | target :: rest2 =>
          match rest2 with
          | [] => .error .MalformedRequestLine
          | version :: _ => .ok (m, target, version)

/-- The header-loop phase of `HttpRequest::build_from_stream` (http_request.rs
lines 70-88), with an explicit fuel parameter to make the recursion
structural; `parseHeaders` supplies sufficient fuel. Returns the header map
and the unread remainder of the stream. -/
def parseHeadersGo :
    Nat → List (List Char × List Char) → List Char →
      Except HttpParseError (List (List Char × List Char) × List Char)
  | 0, m, s => .ok (m, s)
  | fuel + 1, m, s =>
    let raw := (readLine s).1
    let rest := (readLine s).2
    if raw.isEmpty then .ok (m, rest)
    else
      let line := trimEndCRLF raw
      if line.length > maxHeaderLineLen then .error .HeaderTooLong
      else if line.isEmpty then .ok (m, rest)
      else
        match splitOnce ':' line with
        | none => .ok (m, rest)
        | some (title, value) =>
          parseHeadersGo fuel (insertAssoc (lowerL title) (trimL value) m) rest

/-- The header-loop phase of `HttpRequest::build_from_stream`. -/
def parseHeaders (m : List (List Char × List Char)) (s : List Char) :
    Except HttpParseError (List (List Char × List Char) × List Char) :=
  parseHeadersGo (s.length + 1) m s

/-- The body phase of `HttpRequest::build_from_stream` (http_request.rs lines
95-104): when `content-length` parses as a positive integer, `read_exact`
that many bytes (an exhausted stream is an I/O error); otherwise no body. -/
def parseBody (h : List (List Char × List Char)) (s : List Char) :
    Except HttpParseError (Option (List Char)) :=
  match lookupAssoc "content-length".data h with
  | some v =>
    match parseUsize v with
    | some len =>
      if len > 0 then
        if s.length < len then .error .IoError
        else .ok (some (s.take len))
      else .ok none
    | none => .ok none
  | none => .ok none

/-- `HttpRequest::build_from_stream` over a byte stream: request line,
headers, Host validation for HTTP/1.1, then the optional body. -/
def build_from_stream (s : List Char) : Except HttpParseError HttpRequest :=
  let raw := (readLine s).1
  let s1 := (readLine s).2
  match parseRequestLine raw with
  | .error e => .error e
  | .ok (m, target, version) =>
    match parseHeaders [] s1 with
    | .error e => .error e
    | .ok (h, s2) =>
      if version = "HTTP/1.1".data ∧ lookupAssoc "host".data h = none then
        .error .MissingHostHeader
      else
        match parseBody h s2 with
        | .error e => .error e
        | .ok body =>
          .ok { method := m, target := target, version := version,
                headers := h, body := body }

/-- Modelled from the spec: `get_status_phrase` lives in
`src/models/http_status_codes.rs`, which is not present under `src/` (it is
only referenced by `http_response.rs` and its tests). The spec says the
status phrase is derived deterministically from the code via a fixed lookup
table with at minimum 200 OK, 404 Not Found, 500 Internal Server Error, and
that unknown codes map to the empty phrase. -/
def get_status_phrase (code : Nat) : List Char :=
  if code = 200 then "OK".data
  else if code = 404 then "Not Found".data
  else if code = 500 then "Internal Server Error".data
  else []

/-- `HttpResponse` of `http_response.rs`. -/
structure HttpResponse where
  version : List Char
  status_code : Nat
  status_phrase : List Char
  headers : List (List Char × List Char)
  body : Option (List Char)
deriving DecidableEq, Repr

/-- `HttpResponse::build`. -/
def HttpResponse.build (version : List Char) (code : Nat) : HttpResponse :=
  { version := version, status_code := code, status_phrase := get_status_phrase code,
    headers := [], body := none }

/-- `HttpResponse::add_header`: store under the lowercased title. -/
def HttpResponse.add_header (r : HttpResponse) (title value : List Char) : HttpResponse :=
  { r with headers := insertAssoc (lowerL title) value r.headers }

/-- `HttpResponse::add_body`: set the body and overwrite the
`content-length` header with the body's byte length. -/
def HttpResponse.add_body (r : HttpResponse) (body : List Char) : HttpResponse :=
  { r with body := some body,
           headers := insertAssoc "content-length".data (natToChars body.length) r.headers }

/-- A mutating `HttpResponse` operation, for stating invariants over
arbitrary operation sequences. -/
inductive ROp where
  | addHeader (title value : List Char)
  | addBody (body : List Char)

/-- Apply one `ROp`. -/
def applyOp (r : HttpResponse) : ROp → HttpResponse
  | .addHeader t v => r.add_header t v
  | .addBody b => r.add_body b

/-- Apply a sequence of `ROp`s in order. -/
def applyOps (r : HttpResponse) (ops : List ROp) : HttpResponse :=
  ops.foldl applyOp r

/-- The correct-content-length property: whenever the response has a body,
its `content-length` header is exactly the body's byte length. -/
def respCLOk (r : HttpResponse) : Bool :=
  match r.body with
  | none => true
  | some b => lookupAssoc "content-length".data r.headers == some (natToChars b.length)

/-- An operation sequence that never touches the `content-length` header
through `add_header`. -/
def opsCLClean (ops : List ROp) : Bool :=
  ops.all fun op =>
    match op with
    | .addHeader t _ => !(lowerL t == "content-length".data)
    | .addBody _ => true

/-- The negation of the skip condition of `clean_route` in `src/main.rs`:
a segment survives when it is nonempty and neither `.` nor `..`. -/
def keepPart (p : List Char) : Bool :=
  !(p == [] || p == ['.'] || p == ['.', '.'])

/-- `clean_route` of `src/main.rs` (lines 65-77) at the character-list
level: split on `/`, skip empty, `.` and `..` segments, append `/part` for
each remaining part, and fall back to `/` when nothing is left. -/
def cleanRouteL (route : List Char) : List Char :=
  let s := (route.splitOn '/').foldl
    (fun acc part => if keepPart part then acc ++ '/' :: part else acc)
    []
  if s = [] then ['/'] else s

/-- `clean_route` of `src/main.rs`. -/
def clean_route (route : String) : String :=
  String.mk (cleanRouteL route.data)

/-- The claim's description of normalization, for comparison with
`clean_route`: split on `/`, drop empty, `.` and `..` segments, rejoin with
single `/` separators and a leading `/`; an empty result is `/`. -/
def cleanRouteSpecL (route : List Char) : List Char :=
  let kept := (route.splitOn '/').filter keepPart
  if kept = [] then ['/'] else '/' :: List.intercalate ['/'] kept

/-- String-level version of `cleanRouteSpecL`. -/
def clean_route_spec (route : String) : String :=
  String.mk (cleanRouteSpecL route.data)

mutual
/-- A directory entry as seen by `build_routes` in `src/main.rs`: a regular
file or a subdirectory with its entries. -/
inductive FsTree where
  | file (name : List Char)
  | dir (name : List Char) (entries : FsForest)
/-- A list of directory entries, in `read_dir` iteration order. -/
inductive FsForest where
  | nil
  | cons (t : FsTree) (ts : FsForest)
end

/-- Split a character list at the first `.`, used to model `Path::extension`. -/
def splitOnceDot : List Char → Option (List Char × List Char)
  | [] => none
  | c :: cs =>
    if c = '.' then some ([], cs)
    else (splitOnceDot cs).map (fun p => (c :: p.1, p.2))

/-- Rust `Path::extension` on a file name: the portion after the final `.`,
or `None` when there is no `.` or the only `.` starts the name. -/
def extensionOf (name : List Char) : Option (List Char) :=
  match splitOnceDot name.reverse with
  | none => none
  | some (afterRev, beforeRev) =>
    if beforeRev.reverse = [] then none else some afterRev.reverse

/-- The body of `build_routes` in `src/main.rs` (lines 79-111), threading
the accumulated map through the entry loop. `route` is the accumulated URL
prefix, `fsPath` the filesystem path of the directory being walked. A file
whose name has no extension makes `extension().unwrap()` panic, modelled as
`none`. -/
def buildRoutesGo (route fsPath : List Char) (m : List (List Char × List Char)) :
    FsForest → Option (List (List Char × List Char))
  | .nil => some m
  | .cons (.file name) rest =>
    match extensionOf name with
    | none => none
    | some ext =>
      if ext = "html".data ∨ ext = "css".data ∨ ext = "js".data then
        if name = "index.html".data ∨ name = "page.html".data then
          if route = [] then
            buildRoutesGo route fsPath (insertAssoc "/".data (fsPath ++ '/' :: name) m) rest
          else
            buildRoutesGo route fsPath (insertAssoc route (fsPath ++ '/' :: name) m) rest
        else if name = "not_found.html".data then
          buildRoutesGo route fsPath m rest
        else
          buildRoutesGo route fsPath
            (insertAssoc (route ++ '/' :: name) (fsPath ++ '/' :: name) m) rest
      else buildRoutesGo route fsPath m rest
  | .cons (.dir name sub) rest =>
    match buildRoutesGo (route ++ '/' :: name) (fsPath ++ '/' :: name) [] sub with
    | none => none
    | some sm => buildRoutesGo route fsPath (extendAssoc m sm) rest

/-- `build_routes` of `src/main.rs`: walk the directory and build the route
table, starting from an empty map. -/
def build_routes (route fsPath : List Char) (entries : FsForest) :
    Option (List (List Char × List Char)) :=
  buildRoutesGo route fsPath [] entries

/-- The claim's per-file registration rule: a file with extension `html`,
`css` or `js` that is not `not_found.html` is registered, `index.html` and
`page.html` under the prefix itself (or `/` for the empty prefix), every
other eligible file under `prefix/filename`; the registered value is the
file's path. -/
def specFileEntry (route fsPath name : List Char) :
    Option (List Char × List Char) :=
  match extensionOf name with
  | none => none
  | some ext =>
    if (ext = "html".data ∨ ext = "css".data ∨ ext = "js".data)
        ∧ name ≠ "not_found.html".data then
      if name = "index.html".data ∨ name = "page.html".data then
        some ((if route = [] then "/".data else route), fsPath ++ '/' :: name)
      else
        some (route ++ '/' :: name, fsPath ++ '/' :: name)
    else none

/-- The registration entries the claim describes, in walk order. -/
def specEntries (route fsPath : List Char) : FsForest → List (List Char × List Char)
  | .nil => []
  | .cons (.file name) rest =>
    (specFileEntry route fsPath name).toList ++ specEntries route fsPath rest
  | .cons (.dir name sub) rest =>
    specEntries (route ++ '/' :: name) (fsPath ++ '/' :: name) sub
      ++ specEntries route fsPath rest

/-- The route table the claim describes: all registration entries inserted
in walk order into an empty map. -/
def specRouteTable (route fsPath : List Char) (entries : FsForest) :
    List (List Char × List Char) :=
  (specEntries route fsPath entries).foldl (fun acc p => insertAssoc p.1 p.2 acc) []

/-- `handle_connection` of `src/main.rs` (lines 34-63), given the collected
request lines (up to the first empty line) and the filesystem as a partial
read function. A panic (`http_request[0]` on an empty request, the `[1]`
index on a request line with fewer than two tokens, `read_to_string`
failure) is modelled as `none`. -/
def handle_connection (routes : List (List Char × List Char))
    (readFile : List Char → Option (List Char))
    (requestLines : List (List Char)) : Option HttpResponse :=
  match requestLines with
  | [] => none
  | first :: _ =>
    match splitWhitespace first with
    | _ :: route :: _ =>
      let cleaned := cleanRouteL route
      let statusAndFile : Nat × List Char :=
        match lookupAssoc cleaned routes with
        | some p => (200, p)
        | none => (404, "pages/not_found.html".data)
      match readFile statusAndFile.2 with
      | none => none
      | some contents =>
        some (((HttpResponse.build "HTTP/1.1".data statusAndFile.1).add_header
          "Content-Length".data (natToChars contents.length)).add_body contents)
    | _ => none

/-! ## Association-map lemmas -/

theorem lookupAssoc_insertAssoc_self (k v : List Char)
    (m : List (List Char × List Char)) :
    lookupAssoc k (insertAssoc k v m) = some v := by
  induction m with
  | nil => simp [insertAssoc, lookupAssoc]
  | cons p rest ih =>
    obtain ⟨k', v'⟩ := p
    by_cases h : k' = k
    · simp [insertAssoc, lookupAssoc, h]
    · simp [insertAssoc, lookupAssoc, h, ih]

theorem lookupAssoc_insertAssoc_ne (k k' v : List Char)
    (m : List (List Char × List Char)) (h : k' ≠ k) :
    lookupAssoc k (insertAssoc k' v m) = lookupAssoc k m := by
  induction m with
  | nil => simp [insertAssoc, lookupAssoc, h]
  | cons p rest ih =>
    obtain ⟨k'', v''⟩ := p
    by_cases h2 : k'' = k'
    · simp [insertAssoc, lookupAssoc, h2, h]
    · simp [insertAssoc, lookupAssoc, h2, ih]

theorem lookupAssoc_append (k : List Char) (a b : List (List Char × List Char)) :
    lookupAssoc k (a ++ b) = oor (lookupAssoc k a) (lookupAssoc k b) := by
  induction a with
  | nil => simp [lookupAssoc, oor]
  | cons p rest ih =>
    obtain ⟨k', v⟩ := p
    by_cases h : k' = k
    · simp [lookupAssoc, h, oor]
    · simp [lookupAssoc, h, ih]

theorem oor_assoc (a b c : Option (List Char)) :
    oor (oor a b) c = oor a (oor b c) := by
  cases a <;> simp [oor]

theorem oor_none_right (a : Option (List Char)) : oor a none = a := by
  cases a <;> simp [oor]

theorem lookupAssoc_foldl_insert (k : List Char)
    (ps : List (List Char × List Char)) :
    ∀ m, lookupAssoc k (ps.foldl (fun acc p => insertAssoc p.1 p.2 acc) m)
      = oor (lookupAssoc k ps.reverse) (lookupAssoc k m) := by
  induction ps with
  | nil => intro m; simp [lookupAssoc, oor]
  | cons p rest ih =>
    intro m
    obtain ⟨k', v⟩ := p
    rw [List.foldl_cons, ih, List.reverse_cons, lookupAssoc_append, oor_assoc]
    congr 1
    by_cases h : k' = k
    · subst h
      simp [lookupAssoc, lookupAssoc_insertAssoc_self, oor]
    · simp [lookupAssoc, h, lookupAssoc_insertAssoc_ne _ _ _ _ h, oor]

theorem mem_keysOf_insertAssoc (a k v : List Char)
    (m : List (List Char × List Char)) :
    a ∈ keysOf (insertAssoc k v m) ↔ a = k ∨ a ∈ keysOf m := by
  induction m with
  | nil => simp [insertAssoc, keysOf]
  | cons p rest ih =>
    obtain ⟨k', v'⟩ := p
    by_cases h : k' = k
    · subst h
      simp only [insertAssoc, if_pos rfl, keysOf, List.map_cons]
      constructor
      · rintro h2
        rcases List.mem_cons.mp h2 with h3 | h3
        · exact Or.inl h3
        · exact Or.inr (List.mem_cons.mpr (Or.inr h3))
      · rintro (h3 | h3)
        · exact List.mem_cons.mpr (Or.inl h3)
        · rcases List.mem_cons.mp h3 with h4 | h4
          · exact List.mem_cons.mpr (Or.inl h4)
          · exact List.mem_cons.mpr (Or.inr h4)
    · simp only [insertAssoc, if_neg h, keysOf, List.map_cons] at ih ⊢
      constructor
      · rintro h2
        rcases List.mem_cons.mp h2 with h3 | h3
        · exact Or.inr (List.mem_cons.mpr (Or.inl h3))
        · rcases ih.mp h3 with h4 | h4
          · exact Or.inl h4
          · exact Or.inr (List.mem_cons.mpr (Or.inr h4))
      · rintro (h3 | h3)
        · exact List.mem_cons.mpr (Or.inr (ih.mpr (Or.inl h3)))
        · rcases List.mem_cons.mp h3 with h4 | h4
          · exact List.mem_cons.mpr (Or.inl h4)
          · exact List.mem_cons.mpr (Or.inr (ih.mpr (Or.inr h4)))

theorem nodup_keysOf_insertAssoc (k v : List Char)
    (m : List (List Char × List Char)) (h : (keysOf m).Nodup) :
    (keysOf (insertAssoc k v m)).Nodup := by
  induction m with
  | nil => simp [insertAssoc, keysOf]
  | cons p rest ih =>
    obtain ⟨k', v'⟩ := p
    simp only [keysOf, List.map_cons, List.nodup_cons] at h
    by_cases h2 : k' = k
    · subst h2
      simpa [insertAssoc, keysOf, List.nodup_cons] using h
    · simp only [insertAssoc, if_neg h2, keysOf, List.map_cons, List.nodup_cons]
      refine ⟨fun hmem => ?_, ih h.2⟩
      rcases (mem_keysOf_insertAssoc k' k v rest).mp hmem with h3 | h3
      · exact h2 h3
      · exact h.1 h3

theorem lookupAssoc_eq_none_iff (k : List Char) (m : List (List Char × List Char)) :
    lookupAssoc k m = none ↔ k ∉ keysOf m := by
  induction m with
  | nil => simp [lookupAssoc, keysOf]
  | cons p rest ih =>
    obtain ⟨k', v⟩ := p
    by_cases h : k' = k
    · simp [lookupAssoc, h, keysOf]
    · simp [lookupAssoc, h, keysOf, ih, Ne.symm h]

theorem lookupAssoc_reverse_of_nodup (k : List Char)
    (m : List (List Char × List Char)) (h : (keysOf m).Nodup) :
    lookupAssoc k m.reverse = lookupAssoc k m := by
  induction m with
  | nil => rfl
  | cons p rest ih =>
    obtain ⟨k', v⟩ := p
    simp only [keysOf, List.map_cons, List.nodup_cons] at h
    rw [List.reverse_cons, lookupAssoc_append, ih h.2]
    by_cases h2 : k' = k
    · subst h2
      have hrest : lookupAssoc k' rest = none :=
        (lookupAssoc_eq_none_iff k' rest).mpr h.1
      simp [lookupAssoc, hrest, oor]
    · simp [lookupAssoc, h2, oor_none_right]

/-! ## Route-normalization lemmas -/

theorem cleanRoute_foldl (parts : List (List Char)) :
    ∀ acc, parts.foldl (fun acc part => if keepPart part then acc ++ '/' :: part else acc) acc
      = acc ++ ((parts.filter keepPart).map (fun p => '/' :: p)).flatten := by
  induction parts with
  | nil => intro acc; simp
  | cons p rest ih =>
    intro acc
    by_cases h : keepPart p
    · simp [h, ih, List.append_assoc]
    · simp [h, ih]

theorem flatten_map_slash (ks : List (List Char)) (h : ks ≠ []) :
    (ks.map (fun p => '/' :: p)).flatten = '/' :: List.intercalate ['/'] ks := by
  induction ks with
  | nil => exact absurd rfl h
  | cons k rest ih =>
    cases rest with
    | nil => simp [List.intercalate]
    | cons k2 rest2 =>
      rw [List.map_cons, List.flatten_cons, ih (List.cons_ne_nil k2 rest2)]
      simp [List.intercalate, List.intersperse_cons_cons]

theorem cleanRouteL_eq_spec (l : List Char) : cleanRouteL l = cleanRouteSpecL l := by
  unfold cleanRouteL cleanRouteSpecL
  rw [cleanRoute_foldl, List.nil_append]
  cases h : (l.splitOn '/').filter keepPart with
  | nil => simp
  | cons k ks =>
    rw [flatten_map_slash (k :: ks) (List.cons_ne_nil k ks)]
    simp

theorem mem_splitOnP_pred_false (p : Char → Bool) :
    ∀ (l q : List Char), q ∈ l.splitOnP p → ∀ a ∈ q, p a = false := by
  intro l
  induction l with
  | nil =>
    intro q hq a ha
    rw [List.splitOnP_nil] at hq
    simp only [List.mem_singleton] at hq
    subst hq
    exact absurd ha (List.not_mem_nil a)
  | cons c cs ih =>
    intro q hq a ha
    rw [List.splitOnP_cons] at hq
    by_cases hc : p c
    · rw [if_pos hc] at hq
      rcases List.mem_cons.mp hq with h1 | h1
      · subst h1; exact absurd ha (List.not_mem_nil a)
      · exact ih q h1 a ha
    · rw [if_neg hc] at hq
      cases hsplit : cs.splitOnP p with
      | nil => exact absurd hsplit (List.splitOnP_ne_nil p cs)
      | cons hd tl =>
        rw [hsplit, List.modifyHead_cons] at hq
        rcases List.mem_cons.mp hq with h1 | h1
        · subst h1
          rcases List.mem_cons.mp ha with h2 | h2
          · subst h2; exact Bool.eq_false_iff.mpr hc
          · exact ih hd (hsplit ▸ List.mem_cons_self hd tl) a h2
        · exact ih q (hsplit ▸ List.mem_cons_of_mem hd h1) a ha

theorem splitOnP_intercalate_slash :
    ∀ ks : List (List Char), (∀ q ∈ ks, ∀ a ∈ q, (a == '/') = false) → ks ≠ [] →
      (List.intercalate ['/'] ks).splitOnP (fun c => c == '/') = ks := by
  intro ks
  induction ks with
  | nil => intro _ h; exact absurd rfl h
  | cons k rest ih =>
    intro hmem _
    cases rest with
    | nil =>
      have hk : List.intercalate ['/'] [k] = k := by simp [List.intercalate]
      rw [hk]
      exact List.splitOnP_eq_single _ _ fun x hx hpx =>
        absurd hpx (by simp [hmem k (List.mem_cons_self k []) x hx])
    | cons k2 rest2 =>
      have hstep : List.intercalate ['/'] (k :: k2 :: rest2)
          = k ++ '/' :: List.intercalate ['/'] (k2 :: rest2) := by
        simp [List.intercalate, List.intersperse_cons_cons]
      rw [hstep, List.splitOnP_first _ _
        (fun x hx hpx => absurd hpx (by simp [hmem k (List.mem_cons_self k _) x hx]))
        '/' (by simp),
        ih (fun q hq a ha => hmem q (List.mem_cons_of_mem k hq) a ha)
          (List.cons_ne_nil k2 rest2)]

theorem cleanRouteSpecL_idem (l : List Char) :
    cleanRouteSpecL (cleanRouteSpecL l) = cleanRouteSpecL l := by
  cases hk : (l.splitOn '/').filter keepPart with
  | nil =>
    have h1 : cleanRouteSpecL l = ['/'] := by
      unfold cleanRouteSpecL
      simp [hk]
    rw [h1]
    decide
  | cons k ks =>
    have hmemkeep : ∀ q ∈ k :: ks, keepPart q = true := by
      intro q hq
      exact List.of_mem_filter (hk ▸ hq)
    have hmemslash : ∀ q ∈ k :: ks, ∀ a ∈ q, (a == '/') = false := by
      intro q hq a ha
      have hq2 : q ∈ (l.splitOn '/').filter keepPart := hk ▸ hq
      have hq3 : q ∈ l.splitOn '/' := List.mem_of_mem_filter hq2
      have hq4 : q ∈ l.splitOnP (fun b => b == '/') := by
        simpa [List.splitOn] using hq3
      exact mem_splitOnP_pred_false _ l q hq4 a ha
    have h1 : cleanRouteSpecL l = '/' :: List.intercalate ['/'] (k :: ks) := by
      unfold cleanRouteSpecL
      simp [hk]
    rw [h1]
    have hsplit : ('/' :: List.intercalate ['/'] (k :: ks)).splitOn '/'
        = [] :: k :: ks := by
      show ('/' :: List.intercalate ['/'] (k :: ks)).splitOnP (fun b => b == '/')
        = [] :: k :: ks
      rw [List.splitOnP_cons]
      rw [if_pos (by simp)]
      rw [splitOnP_intercalate_slash (k :: ks) hmemslash (List.cons_ne_nil k ks)]
    have hfilter : (([] : List Char) :: k :: ks).filter keepPart = k :: ks := by
      have hkeepnil : keepPart ([] : List Char) = false := by decide
      rw [List.filter_cons_of_neg (by simp [hkeepnil])]
      exact List.filter_eq_self.mpr hmemkeep
    unfold cleanRouteSpecL
    rw [hsplit, hfilter]
    simp

/-! ## Claim theorems: route normalization -/

/-- C4: for every request-target string, `clean_route` returns exactly the
string obtained by splitting on `/`, dropping empty, `.` and `..` segments,
and rejoining the rest with single `/` separators and a leading `/`, with
`/` as the result when no segment remains. -/
theorem clean_route_matches_spec (route : String) :
    clean_route route = clean_route_spec route := by
  unfold clean_route clean_route_spec
  rw [cleanRouteL_eq_spec]

/-- C2 (amended): `clean_route` is idempotent and collapses `//` to `/`,
but `..` segments are dropped rather than resolved, so `/a/b/../b`
normalizes to `/a/b/b` (not `/a/b`). -/
theorem clean_route_idem_and_collapse :
    (∀ s : String, clean_route (clean_route s) = clean_route s)
    ∧ clean_route "//" = clean_route "/"
    ∧ clean_route "/a/b/../b" = "/a/b/b" := by
  refine ⟨fun s => congrArg String.mk ?_, by decide, by decide⟩
  calc cleanRouteL (cleanRouteL s.data)
      = cleanRouteSpecL (cleanRouteSpecL s.data) := by
        rw [cleanRouteL_eq_spec, cleanRouteL_eq_spec]
    _ = cleanRouteSpecL s.data := cleanRouteSpecL_idem s.data
    _ = cleanRouteL s.data := (cleanRouteL_eq_spec s.data).symm

/-- C2 (counterexample): the claim that `clean_route "/a/b/../b"` equals
`"/a/b"` is false on the code, which drops the `..` segment instead of
resolving it against `b`. -/
theorem clean_route_parent_not_resolved :
    clean_route "/a/b/../b" ≠ "/a/b" := by decide

/-! ## Claim theorems: connection handler and route builder panics -/

/-- C1: contrary to the claim, the `handle_connection` of `src/main.rs`
does not produce a best-effort 400-class response on a malformed request;
it panics the worker thread, modelled as `none`: on a request line with
fewer than two whitespace tokens (the `[1]` index panics) and on an empty
request (the `[0]` index panics), no response is produced at all. -/
theorem handle_connection_panics_on_malformed :
    handle_connection [] (fun _ => none) ["GET".data] = none
    ∧ handle_connection [] (fun _ => none) [] = none := by decide

/-- C10: `build_routes` panics (modelled as `none`) on a directory tree
containing a regular file whose name has no extension, such as `README`,
because `extension().unwrap()` runs before the eligible-extension match;
`Path::extension` on `README` is `None`. -/
theorem build_routes_panics_on_extensionless :
    build_routes [] "./pages".data
      (.cons (.file "index.html".data) (.cons (.file "README".data) .nil)) = none
    ∧ extensionOf "README".data = none := by decide

/-! ## Claim theorems: response content-length invariant -/

theorem respCLOk_preserved (ops : List ROp) :
    ∀ r : HttpResponse, respCLOk r = true → opsCLClean ops = true →
      respCLOk (applyOps r ops) = true := by
  induction ops with
  | nil => intro r h _; exact h
  | cons op rest ih =>
    intro r h hclean
    simp only [opsCLClean, List.all_cons, Bool.and_eq_true] at hclean
    have hrest : opsCLClean rest = true := hclean.2
    have hstep : applyOps r (op :: rest) = applyOps (applyOp r op) rest := by
      simp [applyOps]
    rw [hstep]
    cases op with
    | addBody b =>
      exact ih _ (by simp [respCLOk, applyOp, HttpResponse.add_body,
        lookupAssoc_insertAssoc_self]) hrest
    | addHeader t v =>
      refine ih _ ?_ hrest
      have hne : lowerL t ≠ "content-length".data := by
        have := hclean.1
        simpa using this
      cases hb : r.body with
      | none => simp [respCLOk, applyOp, HttpResponse.add_header, hb]
      | some b =>
        have hcl : lookupAssoc "content-length".data r.headers
            = some (natToChars b.length) := by
          have := h
          simp only [respCLOk, hb, beq_iff_eq] at this
          exact this
        simp [respCLOk, applyOp, HttpResponse.add_header, hb,
          lookupAssoc_insertAssoc_ne _ _ _ _ hne, hcl]

/-- C5 (amended): `add_body` always sets the `content-length` header to the
body's byte length, and the correct-content-length property holds for every
response produced from `build` by a sequence of operations that never
touches the `content-length` header through `add_header`. An `add_header`
whose title lowercases to `content-length` can overwrite the automatically
maintained value, so the unrestricted invariant of the claim fails. -/
theorem response_content_length_invariant (version : List Char) (code : Nat)
    (ops : List ROp) (h : opsCLClean ops = true) :
    respCLOk (applyOps (HttpResponse.build version code) ops) = true :=
  respCLOk_preserved ops _ (by simp [respCLOk, HttpResponse.build]) h

/-- C5 (witness): the amended invariant evaluated on a concrete sequence
that adds a body and an unrelated header. -/
theorem response_content_length_invariant_witness :
    respCLOk (applyOps (HttpResponse.build "HTTP/1.1".data 200)
      [ROp.addBody "hi".data, ROp.addHeader "Server".data "x".data]) = true :=
  response_content_length_invariant "HTTP/1.1".data 200
    [ROp.addBody "hi".data, ROp.addHeader "Server".data "x".data] (by decide)

/-- C5 (counterexample): the claim's invariant fails for the operation
sequence that adds a body and then overwrites `content-length` through
`add_header`; the response holds body `"x"` of length 1 while its
`content-length` header says `99`. -/
theorem response_content_length_clobbered :
    (applyOps (HttpResponse.build "HTTP/1.1".data 200)
        [ROp.addBody "x".data, ROp.addHeader "Content-Length".data "99".data]).body
      = some "x".data
    ∧ respCLOk (applyOps (HttpResponse.build "HTTP/1.1".data 200)
        [ROp.addBody "x".data, ROp.addHeader "Content-Length".data "99".data]) = false := by
  decide

/-! ## Stream-reading lemmas -/

theorem readLine_fst_append_snd (s : List Char) :
    (readLine s).1 ++ (readLine s).2 = s := by
  induction s with
  | nil => rfl
  | cons c cs ih => by_cases h : c = '\n' <;> simp [readLine, h, ih]

theorem readLine_fst_nil_iff (s : List Char) : (readLine s).1 = [] ↔ s = [] := by
  cases s with
  | nil => simp [readLine]
  | cons c cs => by_cases h : c = '\n' <;> simp [readLine, h]

theorem readLine_snd_lt (s : List Char) (h : s ≠ []) :
    (readLine s).2.length < s.length := by
  have h1 := congrArg List.length (readLine_fst_append_snd s)
  rw [List.length_append] at h1
  have h2 : (readLine s).1 ≠ [] := fun hnil => h ((readLine_fst_nil_iff s).mp hnil)
  have h3 : 0 < (readLine s).1.length := List.length_pos.mpr h2
  omega

theorem readLine_newline_split (L rest : List Char) (h : '\n' ∉ L) :
    readLine (L ++ '\n' :: rest) = (L ++ ['\n'], rest) := by
  induction L with
  | nil => simp [readLine]
  | cons c cs ih =>
    have hc : c ≠ '\n' := fun he => h (he ▸ List.mem_cons_self c cs)
    have htail : '\n' ∉ cs := fun hm => h (List.mem_cons_of_mem c hm)
    simp [readLine, hc, ih htail]

theorem dropWhile_crlf_of_none (l : List Char)
    (h : ∀ a ∈ l, a ≠ '\r' ∧ a ≠ '\n') :
    l.dropWhile (fun c => c == '\r' || c == '\n') = l := by
  cases l with
  | nil => rfl
  | cons x xs =>
    have hx := h x (List.mem_cons_self x xs)
    simp [List.dropWhile_cons, hx.1, hx.2]

theorem trimEndCRLF_append_newline (L : List Char) (hn : '\n' ∉ L) (hr : '\r' ∉ L) :
    trimEndCRLF (L ++ ['\n']) = L := by
  unfold trimEndCRLF
  have h1 : (L ++ ['\n']).reverse = '\n' :: L.reverse := by simp
  rw [h1, List.dropWhile_cons, if_pos (by decide)]
  rw [dropWhile_crlf_of_none L.reverse (fun a ha => by
    have hmem : a ∈ L := List.mem_reverse.mp ha
    exact ⟨fun he => hr (he ▸ hmem), fun he => hn (he ▸ hmem)⟩)]
  exact List.reverse_reverse L

theorem parseHeadersGo_fuel (f1 : Nat) :
    ∀ (f2 : Nat) (m : List (List Char × List Char)) (s : List Char),
      s.length < f1 → s.length < f2 →
      parseHeadersGo f1 m s = parseHeadersGo f2 m s := by
  induction f1 with
  | zero => intro f2 m s h1 _; omega
  | succ n ih =>
    intro f2 m s h1 h2
    cases f2 with
    | zero => omega
    | succ k =>
      simp only [parseHeadersGo]
      by_cases hraw : (readLine s).1.isEmpty
      · simp [hraw]
      · simp only [hraw, Bool.false_eq_true, if_false]
        by_cases hlen : (trimEndCRLF (readLine s).1).length > maxHeaderLineLen
        · simp [hlen]
        · simp only [hlen, if_false]
          by_cases hline : (trimEndCRLF (readLine s).1).isEmpty
          · simp [hline]
          · simp only [hline, Bool.false_eq_true, if_false]
            cases hsp : splitOnce ':' (trimEndCRLF (readLine s).1) with
            | none => rfl
            | some tv =>
              obtain ⟨t, v⟩ := tv
              have hsne : s ≠ [] := by
                intro he
                subst he
                simp [readLine] at hraw
              have hlt := readLine_snd_lt s hsne
              exact ih k (insertAssoc (lowerL t) (trimL v) m) (readLine s).2
                (by omega) (by omega)

/-! ## Claim theorems: header parsing -/

/-- C7: for a header line `L` (no CR/LF inside) at the front of the stream,
the header loop returns `HeaderTooLong` when `L` exceeds the 8192-byte cap;
a non-empty line without `:` ends header parsing without error, leaving the
rest of the stream unread; a line with a `:` is split at the first `:`, the
value is trimmed and stored under the lowercased title, and parsing
continues; storage is last-occurrence-wins for duplicate keys. -/
theorem header_line_parsing (m : List (List Char × List Char)) (L rest : List Char)
    (hn : '\n' ∉ L) (hr : '\r' ∉ L) :
    (L.length > maxHeaderLineLen →
      parseHeaders m (L ++ '\n' :: rest) = .error .HeaderTooLong)
    ∧ (L ≠ [] → L.length ≤ maxHeaderLineLen → splitOnce ':' L = none →
      parseHeaders m (L ++ '\n' :: rest) = .ok (m, rest))
    ∧ (∀ t v, L.length ≤ maxHeaderLineLen → splitOnce ':' L = some (t, v) →
      parseHeaders m (L ++ '\n' :: rest)
        = parseHeaders (insertAssoc (lowerL t) (trimL v) m) rest)
    ∧ (∀ k v h, lookupAssoc k (insertAssoc k v h) = some v)
    ∧ (∀ k k2 v h, k2 ≠ k → lookupAssoc k (insertAssoc k2 v h) = lookupAssoc k h) := by
  have hread : readLine (L ++ '\n' :: rest) = (L ++ ['\n'], rest) :=
    readLine_newline_split L rest hn
  have htrim : trimEndCRLF (L ++ ['\n']) = L :=
    trimEndCRLF_append_newline L hn hr
  have hrawne : (L ++ ['\n']).isEmpty = false := by cases L <;> rfl
  refine ⟨fun hlen => ?_, fun hLne hlen hsp => ?_, fun t v hlen hsp => ?_,
    fun k v h => lookupAssoc_insertAssoc_self k v h,
    fun k k2 v h hne => lookupAssoc_insertAssoc_ne k k2 v h hne⟩
  · unfold parseHeaders
    simp only [parseHeadersGo, hread, hrawne, htrim]
    simp [hlen]
  · have hLe : L.isEmpty = false := by cases L with
      | nil => exact absurd rfl hLne
      | cons c cs => rfl
    unfold parseHeaders
    simp only [parseHeadersGo, hread, hrawne, htrim]
    simp [Nat.not_lt.mpr hlen, hLe, hsp]
  · have hLne : L ≠ [] := by
      intro he
      subst he
      simp [splitOnce] at hsp
    have hLe : L.isEmpty = false := by cases L with
      | nil => exact absurd rfl hLne
      | cons c cs => rfl
    unfold parseHeaders
    simp only [parseHeadersGo, hread, hrawne, htrim]
    simp only [Nat.not_lt.mpr hlen, if_false, hLe, Bool.false_eq_true, hsp]
    have hlt : rest.length < (L ++ '\n' :: rest).length := by
      simp only [List.length_append, List.length_cons]
      omega
    exact parseHeadersGo_fuel ((L ++ '\n' :: rest).length) (rest.length + 1)
      (insertAssoc (lowerL t) (trimL v) m) rest hlt (by omega)

/-- C7 (witness): header-line parsing evaluated on the concrete header
`Host: example` followed by end-of-stream. -/
theorem header_line_parsing_witness :
    parseHeaders [] ("Host: example".data ++ '\n' :: []) =
      parseHeaders (insertAssoc (lowerL "Host".data) (trimL " example".data) []) [] :=
  (header_line_parsing [] "Host: example".data [] (by decide) (by decide)).2.2.1
    "Host".data " example".data (by decide) (by decide)

/-- C6: request-line parsing returns `HeaderTooLong` when the CR/LF-stripped
line exceeds 8192 bytes, regardless of its token structure; within the cap,
fewer than three whitespace tokens or a first token that is not one of the
nine case-exact method strings yields `MalformedRequestLine`; the nine
method strings are exactly the ones `http_method_from_string` accepts. -/
theorem request_line_parsing (raw : List Char) :
    ((trimEndCRLF raw).length > maxHeaderLineLen →
      parseRequestLine raw = .error .HeaderTooLong)
    ∧ ((trimEndCRLF raw).length ≤ maxHeaderLineLen →
      (splitWhitespace (trimEndCRLF raw)).length < 3 →
      parseRequestLine raw = .error .MalformedRequestLine)
    ∧ (∀ t ts, (trimEndCRLF raw).length ≤ maxHeaderLineLen →
      splitWhitespace (trimEndCRLF raw) = t :: ts →
      http_method_from_string t = none →
      parseRequestLine raw = .error .MalformedRequestLine)
    ∧ (∀ t, (http_method_from_string t).isSome = true ↔
      t ∈ ["GET".data, "HEAD".data, "POST".data, "PUT".data, "DELETE".data,
           "CONNECT".data, "OPTIONS".data, "TRACE".data, "PATCH".data]) := by
  refine ⟨fun hlen => ?_, fun hlen hlt => ?_, fun t ts hlen hsp hm => ?_, fun t => ?_⟩
  · unfold parseRequestLine
    simp [hlen]
  · unfold parseRequestLine
    rcases h : splitWhitespace (trimEndCRLF raw) with _ | ⟨t, _ | ⟨u, _ | ⟨w, ts⟩⟩⟩
    · simp [Nat.not_lt.mpr hlen, h]
    · cases hm : http_method_from_string t <;>
        simp [Nat.not_lt.mpr hlen, h, hm]
    · cases hm : http_method_from_string t <;>
        simp [Nat.not_lt.mpr hlen, h, hm]
    · rw [h] at hlt
      simp at hlt
      omega
  · unfold parseRequestLine
    simp [Nat.not_lt.mpr hlen, hsp, hm]
  · unfold http_method_from_string
    split_ifs <;> simp_all

/-- C6 (witness): a request line with an unrecognized method string is
rejected as malformed. -/
theorem request_line_parsing_witness :
    parseRequestLine "FETCH / HTTP/1.1".data = .error .MalformedRequestLine :=
  (request_line_parsing "FETCH / HTTP/1.1".data).2.2.1 "FETCH".data
    ["/".data, "HTTP/1.1".data] (by decide) (by decide) (by decide)

/-- C8: when the parsed headers hold a `content-length` value that parses
as a positive integer `n`, the body phase reads exactly `n` bytes from the
stream (returning `IoError` when the stream is shorter than `n`); when
`content-length` is absent, invalid, or zero, no body is read. -/
theorem body_parsing (h : List (List Char × List Char)) (s : List Char) :
    (∀ v n, lookupAssoc "content-length".data h = some v → parseUsize v = some n →
        0 < n →
        (n ≤ s.length → parseBody h s = .ok (some (s.take n)) ∧ (s.take n).length = n)
        ∧ (s.length < n → parseBody h s = .error .IoError))
    ∧ (lookupAssoc "content-length".data h = none → parseBody h s = .ok none)
    ∧ (∀ v, lookupAssoc "content-length".data h = some v → parseUsize v = none →
        parseBody h s = .ok none)
    ∧ (∀ v, lookupAssoc "content-length".data h = some v → parseUsize v = some 0 →
        parseBody h s = .ok none) := by
  refine ⟨fun v n hv hn hpos => ⟨fun hle => ⟨?_, ?_⟩, fun hlt => ?_⟩,
    fun hnone => ?_, fun v hv hp => ?_, fun v hv hp => ?_⟩
  · unfold parseBody
    simp [hv, hn, hpos, Nat.not_lt.mpr hle]
  · simp [List.length_take, Nat.min_eq_left hle]
  · unfold parseBody
    simp [hv, hn, hpos, hlt]
  · unfold parseBody
    simp [hnone]
  · unfold parseBody
    simp [hv, hp]
  · unfold parseBody
    simp [hv, hp]

/-- C8 (witness): body parsing evaluated with a concrete `content-length`
of 3 and a six-byte stream. -/
theorem body_parsing_witness :
    parseBody [("content-length".data, "3".data)] "abcdef".data
      = .ok (some ("abcdef".data.take 3)) :=
  ((body_parsing [("content-length".data, "3".data)] "abcdef".data).1
    "3".data 3 (by decide) (by decide) (by decide)).1 (by decide) |>.1

theorem parseBody_error_is_io (h : List (List Char × List Char)) (s : List Char)
    (e : HttpParseError) (he : parseBody h s = .error e) : e = .IoError := by
  unfold parseBody at he
  split at he
  · split at he
    · split at he
      · split at he
        · injection he with h1
          exact h1.symm
        · simp at he
      · simp at he
    · simp at he
  · simp at he

/-- C9: once the request line and the headers have parsed, the stream
produces `MissingHostHeader` exactly when the version string is
`HTTP/1.1` and the header map has no `host` key; with any other version the
check is skipped and `MissingHostHeader` cannot arise. -/
theorem host_validation (s : List Char) (m : HttpMethods) (target version : List Char)
    (h : List (List Char × List Char)) (s2 : List Char)
    (h1 : parseRequestLine (readLine s).1 = .ok (m, target, version))
    (h2 : parseHeaders [] (readLine s).2 = .ok (h, s2)) :
    build_from_stream s = .error .MissingHostHeader ↔
      (version = "HTTP/1.1".data ∧ lookupAssoc "host".data h = none) := by
  simp only [build_from_stream, h1, h2]
  by_cases hc : version = "HTTP/1.1".data ∧ lookupAssoc "host".data h = none
  · simp [hc]
  · rw [if_neg hc]
    cases hb : parseBody h s2 with
    | error e =>
      have he := parseBody_error_is_io h s2 e hb
      subst he
      simp [hc]
    | ok b => simp [hc]

/-- C9 (witness): an `HTTP/1.1` request without a `Host` header is rejected
with `MissingHostHeader`. -/
theorem host_validation_witness :
    build_from_stream "GET / HTTP/1.1\n\n".data = .error .MissingHostHeader :=
  (host_validation "GET / HTTP/1.1\n\n".data HttpMethods.GET "/".data
    "HTTP/1.1".data [] [] rfl rfl).mpr (by decide)

/-! ## Route-table construction lemmas -/

theorem lookupAssoc_insertAssoc_oor (k a b : List Char)
    (m : List (List Char × List Char)) :
    lookupAssoc k (insertAssoc a b m) = oor (lookupAssoc k [(a, b)]) (lookupAssoc k m) := by
  by_cases h : a = k
  · subst h
    rw [lookupAssoc_insertAssoc_self]
    simp [lookupAssoc, oor]
  · rw [lookupAssoc_insertAssoc_ne _ _ _ _ h]
    simp [lookupAssoc, h, oor]

theorem extendAssoc_nodup (sm : List (List Char × List Char)) :
    ∀ m, (keysOf m).Nodup → (keysOf (extendAssoc m sm)).Nodup := by
  induction sm with
  | nil => intro m h; exact h
  | cons p rest ih =>
    intro m h
    have hstep : extendAssoc m (p :: rest) = extendAssoc (insertAssoc p.1 p.2 m) rest := by
      simp [extendAssoc]
    rw [hstep]
    exact ih _ (nodup_keysOf_insertAssoc _ _ _ h)

theorem buildRoutesGo_nodup (n : Nat) :
    ∀ es : FsForest, sizeOf es ≤ n →
    ∀ route fsPath m m', (keysOf m).Nodup →
      buildRoutesGo route fsPath m es = some m' → (keysOf m').Nodup := by
  induction n with
  | zero =>
    intro es hsz
    cases es <;> simp at hsz
  | succ n ih =>
    intro es hsz route fsPath m m' hm hbuild
    cases es with
    | nil =>
      simp only [buildRoutesGo, Option.some.injEq] at hbuild
      exact hbuild ▸ hm
    | cons t ts =>
      cases t with
      | file name =>
        have hts : sizeOf ts ≤ n := by
          simp only [FsForest.cons.sizeOf_spec, FsTree.file.sizeOf_spec] at hsz
          omega
        simp only [buildRoutesGo] at hbuild
        cases hext : extensionOf name with
        | none => rw [hext] at hbuild; simp at hbuild
        | some ext =>
          simp only [hext] at hbuild
          split at hbuild
          · split at hbuild
            · split at hbuild
              · exact ih ts hts _ _ _ _ (nodup_keysOf_insertAssoc _ _ _ hm) hbuild
              · exact ih ts hts _ _ _ _ (nodup_keysOf_insertAssoc _ _ _ hm) hbuild
            · split at hbuild
              · exact ih ts hts _ _ _ _ hm hbuild
              · exact ih ts hts _ _ _ _ (nodup_keysOf_insertAssoc _ _ _ hm) hbuild
          · exact ih ts hts _ _ _ _ hm hbuild
      | dir name sub =>
        have hts : sizeOf ts ≤ n := by
          simp only [FsForest.cons.sizeOf_spec, FsTree.dir.sizeOf_spec] at hsz
          omega
        have hsub : sizeOf sub ≤ n := by
          simp only [FsForest.cons.sizeOf_spec, FsTree.dir.sizeOf_spec] at hsz
          omega
        simp only [buildRoutesGo] at hbuild
        cases hs : buildRoutesGo (route ++ '/' :: name) (fsPath ++ '/' :: name) [] sub with
        | none => rw [hs] at hbuild; simp at hbuild
        | some sm =>
          rw [hs] at hbuild
          exact ih ts hts _ _ _ _
            (extendAssoc_nodup sm m hm) hbuild

theorem buildRoutesGo_lookup (n : Nat) :
    ∀ es : FsForest, sizeOf es ≤ n →
    ∀ route fsPath m m', buildRoutesGo route fsPath m es = some m' →
    ∀ k, lookupAssoc k m'
      = oor (lookupAssoc k (specEntries route fsPath es).reverse) (lookupAssoc k m) := by
  induction n with
  | zero =>
    intro es hsz
    cases es <;> simp at hsz
  | succ n ih =>
    intro es hsz route fsPath m m' hbuild k
    cases es with
    | nil =>
      simp only [buildRoutesGo, Option.some.injEq] at hbuild
      subst hbuild
      simp [specEntries, lookupAssoc, oor]
    | cons t ts =>
      cases t with
      | file name =>
        have hts : sizeOf ts ≤ n := by
          simp only [FsForest.cons.sizeOf_spec, FsTree.file.sizeOf_spec] at hsz
          omega
        simp only [buildRoutesGo] at hbuild
        cases hext : extensionOf name with
        | none => rw [hext] at hbuild; simp at hbuild
        | some ext =>
          simp only [hext] at hbuild
          split at hbuild
          next helig =>
            split at hbuild
            next hidx =>
              have hnf : ¬(name = "not_found.html".data) := by
                rcases hidx with h | h <;> subst h <;> decide
              split at hbuild
              next hroot =>
                rw [ih ts hts route fsPath _ m' hbuild k, lookupAssoc_insertAssoc_oor]
                simp [specEntries, specFileEntry, hext, helig, hidx, hnf, hroot,
                  lookupAssoc_append, oor_assoc]
              next hroot =>
                rw [ih ts hts route fsPath _ m' hbuild k, lookupAssoc_insertAssoc_oor]
                simp [specEntries, specFileEntry, hext, helig, hidx, hnf, hroot,
                  lookupAssoc_append, oor_assoc]
            next hidx =>
              split at hbuild
              next hnf =>
                rw [ih ts hts route fsPath m m' hbuild k]
                have hnf2 : name = "not_found.html".data := hnf
                subst hnf2
                simp [specEntries, specFileEntry, hext]
              next hnf =>
                rw [ih ts hts route fsPath _ m' hbuild k, lookupAssoc_insertAssoc_oor]
                simp [specEntries, specFileEntry, hext, helig, hidx, hnf,
                  lookupAssoc_append, oor_assoc]
          next helig =>
            rw [ih ts hts route fsPath m m' hbuild k]
            simp [specEntries, specFileEntry, hext, helig]
      | dir name sub =>
        have hts : sizeOf ts ≤ n := by
          simp only [FsForest.cons.sizeOf_spec, FsTree.dir.sizeOf_spec] at hsz
          omega
        have hsub : sizeOf sub ≤ n := by
          simp only [FsForest.cons.sizeOf_spec, FsTree.dir.sizeOf_spec] at hsz
          omega
        simp only [buildRoutesGo] at hbuild
        cases hs : buildRoutesGo (route ++ '/' :: name) (fsPath ++ '/' :: name) [] sub with
        | none => rw [hs] at hbuild; simp at hbuild
        | some sm =>
          rw [hs] at hbuild
          have hsmnodup : (keysOf sm).Nodup :=
            buildRoutesGo_nodup n sub hsub _ _ [] sm (by simp [keysOf]) hs
          have h1 := ih ts hts route fsPath (extendAssoc m sm) m' hbuild k
          have h2 : lookupAssoc k (extendAssoc m sm)
              = oor (lookupAssoc k sm.reverse) (lookupAssoc k m) :=
            lookupAssoc_foldl_insert k sm m
          have h3 : lookupAssoc k sm.reverse = lookupAssoc k sm :=
            lookupAssoc_reverse_of_nodup k sm hsmnodup
          have h4 := ih sub hsub (route ++ '/' :: name) (fsPath ++ '/' :: name) [] sm hs k
          rw [h1, h2, h3, h4]
          simp only [lookupAssoc, oor_none_right]
          simp only [specEntries, List.reverse_append, lookupAssoc_append, oor_assoc]

/-! ## Claim theorems: route table construction -/

/-- C3: whenever `build_routes` builds a table (the walk panics on no
file), the table agrees pointwise with the claim's description: exactly the
files with extensions `html`, `css`, `js` are registered, `not_found.html`
never, `index.html` and `page.html` under the directory's own URL prefix
(`/` for the empty prefix), every other eligible file under
`prefix/filename`, each mapped to the file's path, later registrations
overriding earlier ones. -/
theorem build_routes_matches_spec (entries : FsForest) (route fsPath : List Char)
    (m : List (List Char × List Char))
    (hm : build_routes route fsPath entries = some m) :
    ∀ k, lookupAssoc k m = lookupAssoc k (specRouteTable route fsPath entries) := by
  intro k
  have h1 := buildRoutesGo_lookup (sizeOf entries) entries (Nat.le_refl _)
    route fsPath [] m hm k
  have h2 : lookupAssoc k (specRouteTable route fsPath entries)
      = oor (lookupAssoc k (specEntries route fsPath entries).reverse)
          (lookupAssoc k []) :=
    lookupAssoc_foldl_insert k _ []
  rw [h1, h2]

/-- C3 (witness): the correspondence evaluated on a concrete tree holding
an `index.html`, a stylesheet, the reserved `not_found.html`, an ineligible
`photo.png`, and a `blog` subdirectory with a `page.html` and a script. -/
theorem build_routes_matches_spec_witness :
    lookupAssoc "/blog".data
      [("/".data, "./pages/index.html".data),
       ("/style.css".data, "./pages/style.css".data),
       ("/blog".data, "./pages/blog/page.html".data),
       ("/blog/post.js".data, "./pages/blog/post.js".data)]
    = lookupAssoc "/blog".data
        (specRouteTable [] "./pages".data
          (.cons (.file "index.html".data) (.cons (.file "style.css".data)
            (.cons (.file "not_found.html".data) (.cons (.file "photo.png".data)
              (.cons (.dir "blog".data (.cons (.file "page.html".data)
                (.cons (.file "post.js".data) .nil))) .nil)))))) :=
  build_routes_matches_spec
    (.cons (.file "index.html".data) (.cons (.file "style.css".data)
      (.cons (.file "not_found.html".data) (.cons (.file "photo.png".data)
        (.cons (.dir "blog".data (.cons (.file "page.html".data)
          (.cons (.file "post.js".data) .nil))) .nil)))))
    [] "./pages".data
    [("/".data, "./pages/index.html".data),
     ("/style.css".data, "./pages/style.css".data),
     ("/blog".data, "./pages/blog/page.html".data),
     ("/blog/post.js".data, "./pages/blog/post.js".data)]
    (by decide) "/blog".data
